import Mathlib

/-!
Verification of the lazy, memoizing `Seq` core of the `prelude-js` library
(`src/seq.ts`, with the `Option` and `Result` carriers from
`src/monads/option.ts` / `src/monads/safe.ts`).

The embedding models JavaScript iterators as deterministic position-indexed
streams `Nat → Option α` (`Option.none` = the cursor reports `done`), and the
memoizing engine `create` as an explicit state transformer over its cache,
instrumented with a log of every `it.next()` call (the position the cursor
stood at when pulled).  JavaScript's nullish values are modelled by a
parameter `isNil : α → Bool` (the library's `isNil` tests `=== null` /
`=== undefined`); claims whose elements are plain numbers instantiate it
with the constantly-false `noNil`.
-/

set_option linter.unusedVariables false

namespace SeqModel

/-- The library's `Option` type (`src/monads/option.ts`): a `SOME` variant
carrying a value or the singleton `NONE` variant. -/
inductive Opt (α : Type) where
  | none : Opt α
  | some (value : α) : Opt α
deriving DecidableEq

/-- The library's `Result` type (`src/monads/safe.ts`): `FAILURE` with a
cause (modelled by the thrown `Error` message) or `SUCCESS` with a value. -/
inductive Res (α : Type) where
  | failure (cause : String) : Res α
  | success (value : α) : Res α
deriving DecidableEq

/-- `Opt` viewed back as a Lean `Option` (used when an iterator built on top
of `get` translates `NONE` into `done`, as `fold` does in the code). -/
def Opt.toOption : Opt α → Option α
  | .none => Option.none
  | .some v => Option.some v

/-- `optional` (`src/monads/option.ts`): nullish values collapse to `NONE`,
everything else becomes `SOME`. -/
def optional (isNil : α → Bool) (v : α) : Opt α :=
  if isNil v then .none else .some v

/-- `optional` applied to a JS value that may itself be `undefined` (e.g. the
result of an out-of-range array index): `undefined` is nil. -/
def optional' (isNil : α → Bool) : Option α → Opt α
  | Option.none => .none
  | Option.some v => optional isNil v

/-- Nil-test for element types that contain no nullish values (numbers …). -/
def noNil : α → Bool := fun _ => false

/-! ### The memoizing engine (`create` in `src/seq.ts`)

A *source* is the deterministic stream of values a fresh cursor produces:
`src j` is what the `j`-th `it.next()` call on a fresh iterator returns
(`Option.none` = `done`).  `getPull` transcribes the
`while (cache.length <= idx)` loop of `create.get`; `getS` transcribes
`get` itself.  Each result is `(returned Option, new cache, pull log)`,
the log listing the position of every `it.next()` call made. -/

/-- The `while (cache.length <= idx) { n = it.next(); if (n.done) return none;
cache.push(n.value) }` loop followed by `return optional(cache[idx])`.
`need` counts the remaining loop iterations (`idx + 1 - cache.length`);
the cursor's position always equals `cache.length` here, because the
fast-forward loop advanced the fresh cursor exactly `cache.length` times. -/
def getPull (isNil : α → Bool) (src : Nat → Option α) (idx : Nat) :
    (cache : List α) → (need : Nat) → Opt α × List α × List Nat
  | cache, 0 => (optional' isNil cache[idx]?, cache, [])
  | cache, Nat.succ need =>
    match src cache.length with
    | Option.none => (.none, cache, [cache.length])
    | Option.some v =>
      let r := getPull isNil src idx (cache ++ [v]) need
      (r.1, r.2.1, cache.length :: r.2.2)

/-- `create.get(idx)`: if `idx < cache.length` answer `optional(cache[idx])`
from the cache alone (a negative `idx` always lands here and indexes outside
the array, i.e. yields `undefined`); otherwise obtain a fresh cursor, advance
it `cache.length` times discarding the results (logged as positions
`0 … cache.length - 1`), and run the fill loop. -/
def getS (isNil : α → Bool) (src : Nat → Option α) (idx : Int) (cache : List α) :
    Opt α × List α × List Nat :=
  if idx < (cache.length : Int) then
    (optional' isNil (if 0 ≤ idx then cache[idx.toNat]? else Option.none), cache, [])
  else
    let r := getPull isNil src idx.toNat cache (idx.toNat + 1 - cache.length)
    (r.1, r.2.1, List.range cache.length ++ r.2.2)

/-- A batch of `get` requests against one sequence object (the cache is the
shared, persistent state).  Returns the answers, the final cache and the
concatenated pull log. -/
def runGets (isNil : α → Bool) (src : Nat → Option α) :
    (reqs : List Int) → (cache : List α) → List (Opt α) × List α × List Nat
  | [], cache => ([], cache, [])
  | i :: rest, cache =>
    let r := getS isNil src i cache
    let rs := runGets isNil src rest r.2.1
    (r.1 :: rs.1, rs.2.1, r.2.2 ++ rs.2.2)

/-- The value `get(idx)` denotes, independent of the cache: `NONE` below 0 or
when the cursor reports `done` at or before `idx`, else `optional` of the
source's value at `idx`. -/
def pureGetN (isNil : α → Bool) (src : Nat → Option α) (idx : Nat) : Opt α :=
  if (List.range (idx + 1)).all (fun j => (src j).isSome) then optional' isNil (src idx)
  else .none

/-- `pureGetN` extended to the `number` (here: `Int`) indices `get` accepts. -/
def pureGet (isNil : α → Bool) (src : Nat → Option α) (i : Int) : Opt α :=
  if i < 0 then .none else pureGetN isNil src i.toNat

/-- The cache invariant of `create`: every cached slot holds exactly the
value the source produces at that position. -/
def Consistent (src : Nat → Option α) (cache : List α) : Prop :=
  ∀ j : Nat, j < cache.length → src j = cache[j]?

/-- Iteration (`[Symbol.iterator]`, hence `for…of`, spread, `toArrayUnsafe`):
call `get(i)` for `i = 0, 1, 2, …` against the shared cache, stopping at the
first `NONE`.  Returns the yielded elements and the full pull log.  `fuel`
bounds the number of steps (the claims instantiate it large enough). -/
def consumeAll (isNil : α → Bool) (src : Nat → Option α) :
    (fuel : Nat) → (i : Nat) → (cache : List α) → List α × List Nat
  | 0, _, _ => ([], [])
  | Nat.succ fuel, i, cache =>
    let r := getS isNil src (i : Int) cache
    match r.1 with
    | .none => ([], r.2.2)
    | .some v =>
      let rest := consumeAll isNil src fuel (i + 1) r.2.1
      (v :: rest.1, r.2.2 ++ rest.2)

/-- The source `fromArray(arr)` installs: a fresh cursor walks the (cloned)
array by index. -/
def listStream (l : List α) : Nat → Option α := fun j => l[j]?

end SeqModel

namespace SeqModel

/-! ### Basic lemmas about the engine -/

theorem range_all_iff (f : Nat → Bool) (n : Nat) :
    (List.range n).all f = true ↔ ∀ j, j < n → f j = true := by
  simp [List.all_eq_true, List.mem_range]

theorem consistent_concat {src : Nat → Option α} {cache : List α} {v : α}
    (hc : Consistent src cache) (hv : src cache.length = Option.some v) :
    Consistent src (cache ++ [v]) := by
  intro j hj
  rw [List.length_append, List.length_cons, List.length_nil] at hj
  rcases Nat.lt_or_ge j cache.length with h | h
  · rw [List.getElem?_append_left h]
    exact hc j h
  · have hj' : j = cache.length := by omega
    subst hj'
    rw [List.getElem?_concat_length]
    exact hv

theorem getPull_spec (isNil : α → Bool) (src : Nat → Option α) (idx : Nat) :
    ∀ (need : Nat) (cache : List α), Consistent src cache →
      cache.length + need = idx + 1 →
      (getPull isNil src idx cache need).1 = pureGetN isNil src idx ∧
      Consistent src (getPull isNil src idx cache need).2.1 := by
  intro need
  induction need with
  | zero =>
    intro cache hc hlen
    rw [Nat.add_zero] at hlen
    constructor
    · show optional' isNil cache[idx]? = pureGetN isNil src idx
      have hidx : idx < cache.length := by omega
      have hall : (List.range (idx + 1)).all (fun j => (src j).isSome) = true := by
        rw [range_all_iff]
        intro j hj
        have := hc j (by omega)
        rw [this]
        simp [List.getElem?_eq_getElem (show j < cache.length by omega)]
      rw [pureGetN, if_pos hall, hc idx hidx]
    · exact hc
  | succ need ih =>
    intro cache hc hlen
    cases hsrc : src cache.length with
    | none =>
      simp only [getPull, hsrc]
      constructor
      · have hall : (List.range (idx + 1)).all (fun j => (src j).isSome) = false := by
          rw [Bool.eq_false_iff]
          intro hall
          rw [range_all_iff] at hall
          have := hall cache.length (by omega)
          rw [hsrc] at this
          simp at this
        simp only [pureGetN, hall, Bool.false_eq_true, if_false]
      · exact hc
    | some v =>
      simp only [getPull, hsrc]
      have hc' := consistent_concat hc hsrc
      have hlen' : (cache ++ [v]).length + need = idx + 1 := by
        rw [List.length_append]; simp; omega
      have := ih (cache ++ [v]) hc' hlen'
      exact ⟨this.1, this.2⟩

theorem getS_spec (isNil : α → Bool) (src : Nat → Option α) (idx : Int)
    (cache : List α) (hc : Consistent src cache) :
    (getS isNil src idx cache).1 = pureGet isNil src idx ∧
    Consistent src (getS isNil src idx cache).2.1 := by
  rw [getS]
  by_cases hlt : idx < (cache.length : Int)
  · rw [if_pos hlt]
    refine ⟨?_, hc⟩
    by_cases hneg : 0 ≤ idx
    · rw [if_pos hneg]
      have hn : idx.toNat < cache.length := by omega
      rw [pureGet, if_neg (by omega)]
      have hall : (List.range (idx.toNat + 1)).all (fun j => (src j).isSome) = true := by
        rw [range_all_iff]
        intro j hj
        rw [hc j (by omega)]
        simp [List.getElem?_eq_getElem (show j < cache.length by omega)]
      rw [pureGetN, if_pos hall, hc idx.toNat hn]
    · rw [if_neg hneg, pureGet, if_pos (by omega)]
      rfl
  · rw [if_neg hlt]
    have h0 : 0 ≤ idx := le_trans (Int.ofNat_nonneg cache.length) (not_lt.mp hlt)
    have hlen : cache.length + (idx.toNat + 1 - cache.length) = idx.toNat + 1 := by
      omega
    have := getPull_spec isNil src idx.toNat (idx.toNat + 1 - cache.length) cache hc hlen
    rw [pureGet, if_neg (by omega)]
    exact this

/-- Every batch of `get` requests, starting from a consistent cache, answers
every request with the cache-independent denotation. -/
theorem runGets_spec (isNil : α → Bool) (src : Nat → Option α) :
    ∀ (reqs : List Int) (cache : List α), Consistent src cache →
      (runGets isNil src reqs cache).1 = reqs.map (pureGet isNil src) := by
  intro reqs
  induction reqs with
  | nil => intro cache hc; rfl
  | cons i rest ih =>
    intro cache hc
    have h1 := getS_spec isNil src i cache hc
    show (getS isNil src i cache).1 ::
        (runGets isNil src rest (getS isNil src i cache).2.1).1 = _
    rw [h1.1, List.map_cons, ih _ h1.2]

theorem consistent_nil (src : Nat → Option α) : Consistent src ([] : List α) := by
  intro j hj
  simp at hj

end SeqModel

namespace SeqModel

/-! ### Claim C1 — memoized `get` -/

/-- C1 (amended).  `get` on a sequence built by `create` is deterministic:
any batch of `get(i)` requests, starting from the empty cache, answers every
request — repeated ones included — with the same cache-independent value
`pureGet`, and a request whose index is already inside the cache performs no
source pull at all.  However the source is *not* advanced at most once per
position: a `get` that misses the cache obtains a fresh cursor and re-advances
it through every already-cached position (the pull log starts with
`0 … cache.length - 1`) before pulling new positions. -/
theorem seq_get_memoization {α : Type} (isNil : α → Bool) (src : Nat → Option α) :
    (∀ reqs : List Int, (runGets isNil src reqs []).1 = reqs.map (pureGet isNil src)) ∧
    (∀ (idx : Int) (cache : List α), idx < (cache.length : Int) →
      (getS isNil src idx cache).2.2 = []) ∧
    (∀ (idx : Int) (cache : List α), (cache.length : Int) ≤ idx →
      (getS isNil src idx cache).2.2 =
        List.range cache.length ++
          (getPull isNil src idx.toNat cache (idx.toNat + 1 - cache.length)).2.2) := by
  refine ⟨fun reqs => runGets_spec isNil src reqs [] (consistent_nil src), ?_, ?_⟩
  · intro idx cache h
    rw [getS, if_pos h]
  · intro idx cache h
    rw [getS, if_neg (by omega)]

/-- Witness for C1 at a concrete sequence: `fromArray([5])`, requests
`get(0); get(0)` both answer `SOME 5`; a `get(0)` against the filled cache
pulls nothing. -/
theorem seq_get_memoization_w :
    (runGets noNil (listStream ([5] : List Int)) [0, 0] []).1 =
      [Opt.some 5, Opt.some 5] ∧
    (getS noNil (listStream ([5] : List Int)) 0 [5]).2.2 = [] :=
  ⟨((seq_get_memoization noNil (listStream ([5] : List Int))).1 [0, 0]).trans (by decide),
   (seq_get_memoization noNil (listStream ([5] : List Int))).2.1 0 [5] (by decide)⟩

/-- Counterexample to C1 as stated: against the two-element counting source
`fromArray([10, 20])`, the calls `get(0)` then `get(1)` advance the cursor at
position 0 twice (`get(1)` fast-forwards a fresh cursor through the cached
position 0), so the source is *not* advanced at most once per position. -/
theorem seq_get_repull_cx :
    (runGets noNil (listStream ([10, 20] : List Int)) [0, 1] []).2.2 = [0, 0, 1] ∧
    List.count 0 (runGets noNil (listStream ([10, 20] : List Int)) [0, 1] []).2.2 = 2 := by
  decide

/-! ### Claim C2 — Option-shaped element queries -/

/-- `find(fn)` (`src/seq.ts`): walk the iteration, return `some` of the first
match, else `none`. -/
def find (fn : α → Bool) : List α → Opt α
  | [] => .none
  | x :: t => if fn x then .some x else find fn t

/-- `last()` (`src/seq.ts`): walk the iteration keeping the most recent
element wrapped in `some`; starts from `none`. -/
def last : Opt α → List α → Opt α
  | cur, [] => cur
  | _, x :: t => last (.some x) t

/-- C2 (amended).  The presence queries answer with the `Opt` type — `SOME`
with a value or the singleton `NONE` — and for a source that yields a
*non-nullish* element `v` at position `i` (the cursor not being `done` at or
before `i`), `get(i)` is `SOME v`.  But nullish elements are conflated with
absence: if the source yields a nullish element at position `i`, `get(i)` is
`NONE` (the `optional` collapse), so a sequence cannot, in fact, contain a
value indistinguishable from "missing" without ambiguity. -/
theorem option_shaped_queries {α : Type} (isNil : α → Bool) (src : Nat → Option α) :
    (∀ (i : Nat) (cache : List α) (v : α), Consistent src cache →
      (∀ j, j ≤ i → (src j).isSome = true) → src i = Option.some v → isNil v = false →
      (getS isNil src (i : Int) cache).1 = Opt.some v) ∧
    (∀ (i : Nat) (cache : List α) (v : α), Consistent src cache →
      src i = Option.some v → isNil v = true →
      (getS isNil src (i : Int) cache).1 = Opt.none) ∧
    (∀ (fn : α → Bool) (l : List α),
      find fn l = Opt.none ∨ ∃ x, find fn l = Opt.some x ∧ fn x = true) ∧
    (∀ l : List α, last Opt.none l = Opt.none ∨ ∃ x, last Opt.none l = Opt.some x) := by
  refine ⟨?_, ?_, ?_, ?_⟩
  · intro i cache v hc hsome hv hnil
    rw [(getS_spec isNil src (i : Int) cache hc).1, pureGet, if_neg (by omega)]
    have hall : (List.range ((i : Int).toNat + 1)).all (fun j => (src j).isSome) = true := by
      rw [range_all_iff]
      intro j hj
      exact hsome j (by omega)
    rw [pureGetN, if_pos hall]
    simp only [Int.toNat_ofNat, hv, optional', optional, hnil, Bool.false_eq_true, if_false]
  · intro i cache v hc hv hnil
    rw [(getS_spec isNil src (i : Int) cache hc).1, pureGet, if_neg (by omega), pureGetN]
    by_cases hall : (List.range ((i : Int).toNat + 1)).all (fun j => (src j).isSome) = true
    · rw [if_pos hall]
      simp only [Int.toNat_ofNat, hv, optional', optional, hnil, if_true]
    · rw [if_neg hall]
  · intro fn l
    induction l with
    | nil => exact Or.inl rfl
    | cons x t ih =>
      by_cases hx : fn x = true
      · exact Or.inr ⟨x, by simp [find, hx], hx⟩
      · simpa [find, hx] using ih
  · intro l
    cases l with
    | nil => exact Or.inl rfl
    | cons x t =>
      right
      induction t generalizing x with
      | nil => exact ⟨x, rfl⟩
      | cons y t ih => exact ih y

/-- Witness for C2 at a concrete input: `fromArray([7]).get(0)` is `SOME 7`. -/
theorem option_shaped_queries_w :
    (getS noNil (listStream ([7] : List Int)) (0 : Nat) []).1 = Opt.some 7 :=
  (option_shaped_queries noNil (listStream ([7] : List Int))).1 0 [] 7
    (consistent_nil _)
    (fun j hj => by
      have hj0 : j = 0 := Nat.le_zero.mp hj
      subst hj0; decide)
    rfl rfl

/-- A source yielding the element `undefined` at position 0 (modelled as
`Option.none` inside `Option Int`, with `isNil = Option.isNone`). -/
def srcU : Nat → Option (Option Int) :=
  fun i => if i = 0 then Option.some Option.none else Option.none

/-- Counterexample to C2 as stated: `srcU` yields an element at position 0
(`fromArray([undefined])` in JS), yet `get(0)` is the absent variant, not a
present variant carrying that element — the value is indistinguishable from
"missing". -/
theorem nil_element_absent_cx :
    srcU 0 = Option.some Option.none ∧
    (getS Option.isNone srcU 0 []).1 = Opt.none := by
  constructor
  · rfl
  · decide

end SeqModel

namespace SeqModel

/-! ### Consuming a `fromArray` sequence through the shared cache -/

theorem getS_listStream_step (isNil : α → Bool) (l : List α) (k : Nat)
    (hk : k ≤ l.length) :
    getS isNil (listStream l) (k : Int) (l.take k) =
      (match l[k]? with
       | Option.none => ((Opt.none : Opt α), l.take k, List.range k ++ [k])
       | Option.some v => (optional isNil v, l.take (k + 1), List.range k ++ [k])) := by
  have hlen : (l.take k).length = k := by
    rw [List.length_take]; omega
  rw [getS, if_neg (by rw [hlen]; omega)]
  cases hl : l[k]? with
  | none =>
    simp only [Int.toNat_ofNat, hlen, Nat.add_sub_cancel_left, getPull, listStream, hl]
  | some v =>
    have hcat : (l.take k) ++ [v] = l.take (k + 1) := by
      rw [List.take_succ, hl]
      rfl
    have hidx : (l.take (k + 1))[k]? = Option.some v := by
      rw [← hcat]
      have h2 := List.getElem?_concat_length (l.take k) v
      rwa [hlen] at h2
    simp only [Int.toNat_ofNat, hlen, Nat.add_sub_cancel_left, getPull, listStream, hl,
      hcat, hidx, optional']

theorem consume_aux (isNil : α → Bool) (l : List α) :
    ∀ (fuel k : Nat), k ≤ l.length → l.length - k < fuel →
      ((consumeAll isNil (listStream l) fuel k (l.take k)).1
          = (l.drop k).takeWhile (fun v => !isNil v)) ∧
      (∀ x ∈ (consumeAll isNil (listStream l) fuel k (l.take k)).2, x ≤ l.length) ∧
      ((∀ v ∈ l, isNil v = false) →
        l.length ∈ (consumeAll isNil (listStream l) fuel k (l.take k)).2) := by
  intro fuel
  induction fuel with
  | zero => intro k hk hf; omega
  | succ fuel ih =>
    intro k hk hf
    rcases Nat.lt_or_ge k l.length with hkl | hkl
    · have hv : l[k]? = Option.some l[k] := List.getElem?_eq_getElem hkl
      have hdrop : l.drop k = l[k] :: l.drop (k + 1) := List.drop_eq_getElem_cons hkl
      by_cases hnil : isNil l[k] = true
      · have hstep : consumeAll isNil (listStream l) (fuel + 1) k (l.take k) =
            ([], List.range k ++ [k]) := by
          rw [consumeAll, getS_listStream_step isNil l k hk, hv]
          simp only [optional, hnil, if_true]
        rw [hstep]
        refine ⟨?_, ?_, ?_⟩
        · rw [hdrop, List.takeWhile_cons, hnil]
          simp
        · intro x hx
          simp only [List.mem_append, List.mem_range, List.mem_singleton] at hx
          omega
        · intro hall
          exact absurd (hall l[k] (List.getElem_mem hkl)) (by rw [hnil]; simp)
      · have hstep : consumeAll isNil (listStream l) (fuel + 1) k (l.take k) =
            (l[k] :: (consumeAll isNil (listStream l) fuel (k + 1) (l.take (k + 1))).1,
             (List.range k ++ [k]) ++
               (consumeAll isNil (listStream l) fuel (k + 1) (l.take (k + 1))).2) := by
          rw [consumeAll, getS_listStream_step isNil l k hk, hv]
          simp only [optional, hnil, Bool.false_eq_true, if_false]
        rw [hstep]
        have hrec := ih (k + 1) (by omega) (by omega)
        refine ⟨?_, ?_, ?_⟩
        · rw [hdrop, List.takeWhile_cons]
          simp only [hnil, Bool.false_eq_true, not_false_eq_true, Bool.not_eq_true',
            Bool.not_true, Bool.not_false, if_true]
          rw [hrec.1]
        · intro x hx
          simp only [List.mem_append, List.mem_range, List.mem_singleton] at hx
          rcases hx with (h | h) | h
          · omega
          · omega
          · exact hrec.2.1 x h
        · intro hall
          simp only [List.mem_append]
          exact Or.inr (hrec.2.2 hall)
    · have hkl' : k = l.length := by omega
      have hv : l[k]? = Option.none := by
        rw [List.getElem?_eq_none_iff]
        omega
      have hstep : consumeAll isNil (listStream l) (fuel + 1) k (l.take k) =
          ([], List.range k ++ [k]) := by
        rw [consumeAll, getS_listStream_step isNil l k hk, hv]
      rw [hstep]
      refine ⟨?_, ?_, ?_⟩
      · rw [hkl', List.drop_length]
        rfl
      · intro x hx
        simp only [List.mem_append, List.mem_range, List.mem_singleton] at hx
        omega
      · intro _
        simp [hkl']

/-- Consuming `fromArray(l)` from scratch: the elements yielded are the
longest nil-free prefix of `l` (iteration stops at the first nullish value,
which `get` reports as `NONE`). -/
theorem consume_listStream (isNil : α → Bool) (l : List α) :
    ((consumeAll isNil (listStream l) (l.length + 1) 0 []).1
        = l.takeWhile (fun v => !isNil v)) ∧
    (∀ x ∈ (consumeAll isNil (listStream l) (l.length + 1) 0 []).2, x ≤ l.length) ∧
    ((∀ v ∈ l, isNil v = false) →
      l.length ∈ (consumeAll isNil (listStream l) (l.length + 1) 0 []).2) := by
  have := consume_aux isNil l (l.length + 1) 0 (by omega) (by omega)
  simpa using this

end SeqModel

namespace SeqModel

/-! ### Claim C8 — `fromArray` / `toArrayUnsafe` round-trip -/

theorem takeWhile_of_all_not_nil (isNil : α → Bool) :
    ∀ l : List α, (∀ v ∈ l, isNil v = false) →
      l.takeWhile (fun v => !isNil v) = l := by
  intro l
  induction l with
  | nil => intro _; rfl
  | cons x t ih =>
    intro h
    rw [List.takeWhile_cons]
    have hx : isNil x = false := h x (List.mem_cons_self x t)
    simp only [hx, Bool.not_false, if_true]
    rw [ih (fun v hv => h v (List.mem_cons_of_mem x hv))]

/-- C8 (amended).  `Seq.fromArray(arr).toArrayUnsafe()` — spreading the
sequence, i.e. iterating `get(0), get(1), …` against the shared cache —
returns `arr` element-for-element for every finite array whose elements are
all non-nullish (including `[]`).  The "no restriction on element values"
part of the claim fails: a nullish element ends the iteration early (see the
counterexample). -/
theorem fromArray_roundtrip {α : Type} (isNil : α → Bool) (l : List α)
    (h : ∀ v ∈ l, isNil v = false) :
    (consumeAll isNil (listStream l) (l.length + 1) 0 []).1 = l := by
  rw [(consume_listStream isNil l).1]
  exact takeWhile_of_all_not_nil isNil l h

/-- Witness for C8: `fromArray([1,2]).toArrayUnsafe() = [1,2]`, and the empty
array round-trips as well. -/
theorem fromArray_roundtrip_w :
    (consumeAll noNil (listStream ([1, 2] : List Int)) 3 0 []).1 = [1, 2] ∧
    (consumeAll noNil (listStream ([] : List Int)) 1 0 []).1 = [] :=
  ⟨fromArray_roundtrip noNil [1, 2] (by decide),
   fromArray_roundtrip noNil [] (by decide)⟩

/-- Counterexample to C8 as stated: the one-element array `[undefined]`
(modelled as `[Option.none]` with `isNil = Option.isNone`) round-trips to
`[]`, not to itself — `get(0)` collapses the nullish element to `NONE`,
which the iterator treats as end-of-sequence. -/
theorem fromArray_roundtrip_cx :
    (consumeAll Option.isNone (listStream [(Option.none : Option Int)]) 2 0 []).1
        = ([] : List (Option Int)) ∧
    ([] : List (Option Int)) ≠ [Option.none] := by
  decide

/-! ### Claim C4 — capped bounded operations (`length`, `reverse`, `toArray`) -/

/-- `length(max)` (`src/seq.ts`): walk the iteration counting, throwing
`"Too large"` (captured by `attempt` into a `FAILURE`) as soon as the count
exceeds `max`. -/
def lengthGo (max : Nat) : Nat → List α → Res Nat
  | c, [] => .success c
  | c, _ :: t => if c + 1 > max then .failure "Too large" else lengthGo max (c + 1) t

/-- Module-level `toArray(seq, max)` (`src/seq.ts`): push each value, count,
and abort with the "cannot convert" cause once the count exceeds `max`. -/
def toArrayGo (max : Nat) : List α → Nat → List α → Res (List α)
  | acc, _, [] => .success acc
  | acc, c, v :: t =>
    if c + 1 > max then .failure "Cannot convert an unbounded or very large sequence"
    else toArrayGo max (acc ++ [v]) (c + 1) t

/-- `reverse(max)` (`src/seq.ts`): accumulate, count, abort with the "cannot
reverse" cause once the count exceeds `max`; on success the result sequence
is the reversed buffer. -/
def reverseGo (max : Nat) : List α → Nat → List α → Res (List α)
  | acc, _, [] => .success acc.reverse
  | acc, c, v :: t =>
    if c + 1 > max then .failure "Cannot reverse an unbounded or very large sequence"
    else reverseGo max (acc ++ [v]) (c + 1) t

theorem lengthGo_closed (max : Nat) :
    ∀ (l : List α) (c : Nat), c ≤ max →
      lengthGo max c l =
        if c + l.length ≤ max then .success (c + l.length) else .failure "Too large" := by
  intro l
  induction l with
  | nil =>
    intro c hc
    simp [lengthGo, hc]
  | cons x t ih =>
    intro c hc
    rw [lengthGo]
    by_cases h : c + 1 > max
    · rw [if_pos h, if_neg (by simp; omega)]
    · rw [if_neg h, ih (c + 1) (by omega)]
      have : c + 1 + t.length = c + (x :: t).length := by simp; omega
      rw [this]

theorem toArrayGo_closed (max : Nat) :
    ∀ (l acc : List α) (c : Nat), c ≤ max →
      toArrayGo max acc c l =
        if c + l.length ≤ max then .success (acc ++ l)
        else .failure "Cannot convert an unbounded or very large sequence" := by
  intro l
  induction l with
  | nil =>
    intro acc c hc
    simp [toArrayGo, hc]
  | cons x t ih =>
    intro acc c hc
    rw [toArrayGo]
    by_cases h : c + 1 > max
    · rw [if_pos h, if_neg (by simp; omega)]
    · rw [if_neg h, ih (acc ++ [x]) (c + 1) (by omega)]
      by_cases h2 : c + 1 + t.length ≤ max
      · rw [if_pos h2, if_pos (by simp; omega)]
        simp
      · rw [if_neg h2, if_neg (by simp; omega)]

theorem reverseGo_closed (max : Nat) :
    ∀ (l acc : List α) (c : Nat), c ≤ max →
      reverseGo max acc c l =
        if c + l.length ≤ max then .success (acc ++ l).reverse
        else .failure "Cannot reverse an unbounded or very large sequence" := by
  intro l
  induction l with
  | nil =>
    intro acc c hc
    simp [reverseGo, hc]
  | cons x t ih =>
    intro acc c hc
    rw [reverseGo]
    by_cases h : c + 1 > max
    · rw [if_pos h, if_neg (by simp; omega)]
    · rw [if_neg h, ih (acc ++ [x]) (c + 1) (by omega)]
      by_cases h2 : c + 1 + t.length ≤ max
      · rw [if_pos h2, if_pos (by simp; omega)]
        simp
      · rw [if_neg h2, if_neg (by simp; omega)]

/-- C4.  `length(max)`, `reverse(max)` and module-level `toArray(seq, max)`
walk the sequence eagerly with a counter; if the count exceeds `max` during
the walk they return the `FAILURE` variant tagged with the operation's
"too large" cause and never a partial value, otherwise the `SUCCESS` variant
with the full result (count, reversed elements, element array).  In
particular `fromArray([1,2,3,4,5]).length(2)` fails and `.length(10)`
succeeds with 5 (the walked list being what iterating the `fromArray`
sequence yields). -/
theorem bounded_ops_cap {α : Type} (l : List α) (max : Nat) :
    (lengthGo max 0 l =
      if l.length ≤ max then .success l.length else .failure "Too large") ∧
    (toArrayGo max [] 0 l =
      if l.length ≤ max then .success l
      else .failure "Cannot convert an unbounded or very large sequence") ∧
    (reverseGo max [] 0 l =
      if l.length ≤ max then .success l.reverse
      else .failure "Cannot reverse an unbounded or very large sequence") ∧
    (lengthGo 2 0 (consumeAll noNil (listStream ([1, 2, 3, 4, 5] : List Int)) 6 0 []).1
      = .failure "Too large") ∧
    (lengthGo 10 0 (consumeAll noNil (listStream ([1, 2, 3, 4, 5] : List Int)) 6 0 []).1
      = .success 5) := by
  refine ⟨?_, ?_, ?_, by decide, by decide⟩
  · have := lengthGo_closed max l 0 (by omega)
    simpa using this
  · have := toArrayGo_closed max l [] 0 (by omega)
    simpa using this
  · have := reverseGo_closed max l [] 0 (by omega)
    simpa using this

end SeqModel

namespace SeqModel

/-! ### Sequence denotations as `get` functions

A sequence object denotes its `get` function `Int → Opt α`.  For a sequence
built by `create` over a deterministic source this is `pureGet` (proved by
`getS_spec`); derived sequences are again `create` applications, their source
being the stream of values one fresh iterator of the wrapped factory
produces. -/

/-- The `get` function of `create(source)` over element types with no nullish
values. -/
def seqOf (src : Nat → Option α) : Int → Opt α := pureGet noNil src

/-- The `get` function of `fromArray(l)`. -/
def fromArrayGet (l : List α) : Int → Opt α := seqOf (listStream l)

/-! ### Claim C3 — `zip` -/

/-- The pairing step of `zip`: `(a.done || b.done) ? done : [a.value, b.value]`. -/
def pairOpt : Option α → Option β → Option (α × β)
  | Option.some x, Option.some y => Option.some (x, y)
  | _, _ => Option.none

/-- `zip(other)` (`src/seq.ts`): the fresh iterator of the zipped sequence
holds one iterator over each side (each walking its sequence through `get`);
every `next()` pulls **both** sides unconditionally — `const a = la.next();
const b = lb.next();` — and yields the pair unless either side was `done`.
Step `j` therefore reads position `j` of both branches. -/
def zip (pa : Int → Opt α) (pb : Int → Opt β) : Nat → Option (α × β) := fun j =>
  pairOpt (pa (j : Int)).toOption (pb (j : Int)).toOption

theorem fromArrayGet_toOption (l : List α) (j : Nat) :
    (fromArrayGet l (j : Int)).toOption = l[j]? := by
  rw [fromArrayGet, seqOf, pureGet, if_neg (by omega), Int.toNat_ofNat, pureGetN]
  by_cases hj : j < l.length
  · have hall : (List.range (j + 1)).all (fun k => ((listStream l) k).isSome) = true := by
      rw [range_all_iff]
      intro k hk
      simp [listStream, List.getElem?_eq_getElem (show k < l.length by omega)]
    rw [if_pos hall]
    simp [listStream, List.getElem?_eq_getElem hj, optional', optional, noNil, Opt.toOption]
  · have hnone : l[j]? = Option.none := List.getElem?_eq_none_iff.mpr (by omega)
    have hall : ¬ ((List.range (j + 1)).all (fun k => ((listStream l) k).isSome) = true) := by
      rw [range_all_iff]
      push_neg
      refine ⟨j, by omega, ?_⟩
      simp [listStream, hnone]
    rw [if_neg hall]
    simp [Opt.toOption, hnone]

theorem zip_getElem? : ∀ (la : List α) (lb : List β) (j : Nat),
    (List.zip la lb)[j]? = pairOpt la[j]? lb[j]? := by
  intro la
  induction la with
  | nil =>
    intro lb j
    simp [List.zip, pairOpt]
  | cons a ta ih =>
    intro lb j
    cases lb with
    | nil => simp [List.zip, pairOpt]
    | cons b tb =>
      cases j with
      | zero => simp [List.zip, pairOpt]
      | succ j => simpa [List.zip] using ih tb j

theorem zip_fromArray (la : List α) (lb : List β) :
    zip (fromArrayGet la) (fromArrayGet lb) = listStream (List.zip la lb) := by
  funext j
  simp only [zip, listStream, fromArrayGet_toOption, zip_getElem?]

/-- C3 (amended).  `a.zip(b)` pairs elements positionally and stops at the
first exhaustion on either side (it yields exactly `List.zip a b`).
Consuming it to completion never pulls a position *strictly beyond* the point
of first exhaustion, but the position *at* the point of first exhaustion is
pulled on **both** branches (each step advances both iterators
unconditionally): with `a` exhausted at position `k` and `b` longer, position
`k` of `b` is evaluated. -/
theorem zip_pairing (la : List α) (lb : List β) :
    ((consumeAll noNil (zip (fromArrayGet la) (fromArrayGet lb))
        (min la.length lb.length + 1) 0 []).1 = List.zip la lb) ∧
    (∀ x ∈ (consumeAll noNil (zip (fromArrayGet la) (fromArrayGet lb))
        (min la.length lb.length + 1) 0 []).2, x ≤ min la.length lb.length) ∧
    (la.length < lb.length →
      la.length ∈ (consumeAll noNil (zip (fromArrayGet la) (fromArrayGet lb))
        (min la.length lb.length + 1) 0 []).2) := by
  have hlen : (List.zip la lb).length = min la.length lb.length := by
    rw [List.length_zip]
  rw [zip_fromArray, ← hlen]
  refine ⟨?_, (consume_listStream noNil _).2.1, ?_⟩
  · exact ((consume_listStream noNil _).1).trans
      (takeWhile_of_all_not_nil noNil _ (fun v _ => rfl))
  · intro hlt
    have hmem := (consume_listStream noNil (List.zip la lb)).2.2 (fun v _ => rfl)
    have heq : (List.zip la lb).length = la.length := by
      rw [hlen]
      omega
    rw [heq] at hmem ⊢
    exact hmem

/-- Witness for C3: with `a = [1]` exhausted at position 1 and `b = [10,20]`,
position 1 of `b` is pulled during consumption. -/
theorem zip_pairing_w :
    1 ∈ (consumeAll noNil
      (zip (fromArrayGet ([1] : List Int)) (fromArrayGet ([10, 20] : List Int)))
      2 0 []).2 :=
  (zip_pairing ([1] : List Int) ([10, 20] : List Int)).2.2 (by decide)

/-- Counterexample to C3 as stated: `a = [1]` is exhausted at `k = 1` and
`b = [10, 20]` has at least 1 element, yet consuming `a.zip(b)` to completion
pulls position `1 ≥ k` of `b` (the pull log of the zipped steps — each step
pulling both branches at that position — is `[0, 0, 1]`). -/
theorem zip_boundary_pull_cx :
    (consumeAll noNil
        (zip (fromArrayGet ([1] : List Int)) (fromArrayGet ([10, 20] : List Int)))
        5 0 []).1 = [(1, 10)] ∧
    (consumeAll noNil
        (zip (fromArrayGet ([1] : List Int)) (fromArrayGet ([10, 20] : List Int)))
        5 0 []).2 = [0, 0, 1] := by
  decide

end SeqModel

namespace SeqModel

/-! ### `drop`, `take`, `slice` (claims C9, C10) -/

/-- A well-formed `get` function: negative indices answer `NONE`, and once a
non-negative index answers `NONE` (end of sequence) every later index does
too.  `pureGet` over any source with nil-free elements is of this shape. -/
def GoodGet (p : Int → Opt α) : Prop :=
  (∀ i : Int, i < 0 → p i = Opt.none) ∧
  (∀ i : Nat, p (i : Int) = Opt.none → p ((i : Int) + 1) = Opt.none)

/-- `drop(n)` (`src/seq.ts`): a fresh iterator holds `let i = n` and each
`next()` answers `fold(...)(get(i++))` — i.e. step `j` reads the parent's
`get(n + j)`.  The derived sequence is `create` over this stream. -/
def dropSG (p : Int → Opt α) (n : Int) : Int → Opt α :=
  seqOf (fun j => (p (n + (j : Int))).toOption)

/-- `take(n)` (`src/seq.ts`): `const m = Math.max(0, n)`; a fresh iterator
answers `done` from step `m` on and otherwise reads the parent's `get(i++)`. -/
def takeSG (p : Int → Opt α) (n : Int) : Int → Opt α :=
  seqOf (fun j => if (j : Int) < max 0 n then (p (j : Int)).toOption else Option.none)

/-- `slice(start, end?)` (`src/seq.ts`): `dropped = drop(start)`;
`s = max(0, start)`; `e = end <= s ? s : end`; a finite `e` yields
`dropped.take(e - s)`, an absent `end` (JS default `Infinity`, not finite)
yields `dropped` itself. -/
def sliceSG (p : Int → Opt α) (start : Int) (stop : Option Int) : Int → Opt α :=
  match stop with
  | Option.none => dropSG p start
  | Option.some e0 =>
    takeSG (dropSG p start) ((if e0 ≤ max 0 start then max 0 start else e0) - max 0 start)

theorem seqOf_neg (src : Nat → Option α) (i : Int) (h : i < 0) :
    seqOf src i = Opt.none := by
  rw [seqOf, pureGet, if_pos h]

theorem seqOf_natCast (src : Nat → Option α) (n : Nat) :
    seqOf src (n : Int) = pureGetN noNil src n := by
  rw [seqOf, pureGet, if_neg (by omega), Int.toNat_ofNat]

theorem goodGet_seqOf (src : Nat → Option α) : GoodGet (seqOf src) := by
  constructor
  · intro i hi
    exact seqOf_neg src i hi
  · intro n h
    have hcast : ((n : Int) + 1) = ((n + 1 : Nat) : Int) := by push_cast; ring
    rw [seqOf_natCast] at h
    rw [hcast, seqOf_natCast]
    rw [pureGetN] at h ⊢
    by_cases hall : (List.range (n + 1)).all (fun j => (src j).isSome) = true
    · rw [if_pos hall] at h
      have hsrc : src n = Option.none := by
        cases hs : src n with
        | none => rfl
        | some v =>
          rw [hs] at h
          simp [optional', optional, noNil] at h
      have hfail : ¬ ((List.range (n + 1 + 1)).all (fun j => (src j).isSome) = true) := by
        rw [range_all_iff]
        push_neg
        exact ⟨n, by omega, by simp [hsrc]⟩
      rw [if_neg hfail]
    · have hfail : ¬ ((List.range (n + 1 + 1)).all (fun j => (src j).isSome) = true) := by
        rw [range_all_iff] at hall ⊢
        push_neg at hall ⊢
        obtain ⟨j, hj, hjs⟩ := hall
        exact ⟨j, by omega, hjs⟩
      rw [if_neg hfail]

theorem goodGet_persist {p : Int → Opt α} (h : GoodGet p) {j : Nat}
    (hj : p (j : Int) = Opt.none) : ∀ m, j ≤ m → p (m : Int) = Opt.none := by
  intro m hm
  induction m, hm using Nat.le_induction with
  | base => exact hj
  | succ m hm ih =>
    have h2 := h.2 m ih
    rwa [show ((m : Int) + 1) = ((m + 1 : Nat) : Int) by push_cast; ring] at h2

theorem seqOf_headNone {src : Nat → Option α} (h : src 0 = Option.none) :
    ∀ i : Int, seqOf src i = Opt.none := by
  intro i
  by_cases hi : i < 0
  · exact seqOf_neg src i hi
  · have hcast : i = ((i.toNat : Nat) : Int) := by omega
    rw [hcast, seqOf_natCast, pureGetN, if_neg]
    rw [range_all_iff]
    push_neg
    exact ⟨0, by omega, by simp [h]⟩

theorem dropSG_empty_of_none {p : Int → Opt α} {n : Int} (h : p n = Opt.none) :
    ∀ i : Int, dropSG p n i = Opt.none := by
  intro i
  rw [dropSG]
  have h0 : (p (n + ((0 : Nat) : Int))).toOption = Option.none := by
    simp [h, Opt.toOption]
  exact seqOf_headNone h0 i

theorem takeSG_of_all_none {p : Int → Opt α}
    (h : ∀ j : Nat, p (j : Int) = Opt.none) (m : Int) :
    ∀ i : Int, takeSG p m i = Opt.none := by
  intro i
  rw [takeSG]
  apply seqOf_headNone
  by_cases h0 : (((0 : Nat) : Int)) < max 0 m
  · simp only [if_pos h0, h 0, Opt.toOption]
  · simp only [if_neg h0]

theorem takeSG_nonpos {p : Int → Opt α} {m : Int} (hm : m ≤ 0) :
    ∀ i : Int, takeSG p m i = Opt.none := by
  intro i
  rw [takeSG]
  apply seqOf_headNone
  have hmax : max 0 m = 0 := max_eq_left hm
  have hlt : ¬ ((((0 : Nat) : Int)) < max 0 m) := by
    rw [hmax]
    simp
  simp only [if_neg hlt]

theorem takeSG_arg {p : Int → Opt α} {m m' : Int} (h : max 0 m = max 0 m') :
    takeSG p m = takeSG p m' := by
  rw [takeSG, takeSG, h]

end SeqModel

namespace SeqModel

/-- C9.  `slice(start, end)` yields pointwise the same `get` function as
`drop(start).take(max(0, end - start))`; an absent `end` is exactly
`drop(start)` (to exhaustion); `end < start` yields the empty sequence;
a negative `start` yields the empty sequence; and a `start` at or past the
end of the sequence yields the empty sequence — bounds clamp to empty, no
branch can raise. -/
theorem slice_drop_take_equiv {α : Type} (p : Int → Opt α) (h : GoodGet p) :
    (∀ start e0 i : Int,
      sliceSG p start (Option.some e0) i
        = takeSG (dropSG p start) (max 0 (e0 - start)) i) ∧
    (∀ start : Int, sliceSG p start Option.none = dropSG p start) ∧
    (∀ start e0 i : Int, e0 < start → sliceSG p start (Option.some e0) i = Opt.none) ∧
    (∀ (start : Int) (stop : Option Int) (i : Int), start < 0 →
      sliceSG p start stop i = Opt.none) ∧
    (∀ (start : Int) (stop : Option Int) (i : Int), 0 ≤ start → p start = Opt.none →
      sliceSG p start stop i = Opt.none) := by
  refine ⟨?_, fun start => rfl, ?_, ?_, ?_⟩
  · intro start e0 i
    show takeSG (dropSG p start)
        ((if e0 ≤ max 0 start then max 0 start else e0) - max 0 start) i = _
    by_cases h0 : 0 ≤ start
    · have hs : max 0 start = start := max_eq_right h0
      rw [hs]
      have harg : max 0 ((if e0 ≤ start then start else e0) - start)
          = max 0 (max 0 (e0 - start)) := by
        split_ifs with he <;> omega
      rw [takeSG_arg harg]
    · push_neg at h0
      have hnone : p start = Opt.none := h.1 start h0
      have hemp : ∀ j : Nat, dropSG p start (j : Int) = Opt.none :=
        fun j => dropSG_empty_of_none hnone (j : Int)
      rw [takeSG_of_all_none hemp _ i, takeSG_of_all_none hemp _ i]
  · intro start e0 i hlt
    by_cases h0 : 0 ≤ start
    · show takeSG (dropSG p start)
          ((if e0 ≤ max 0 start then max 0 start else e0) - max 0 start) i = _
      have hs : max 0 start = start := max_eq_right h0
      have he : e0 ≤ max 0 start := by omega
      rw [if_pos he, sub_self]
      exact takeSG_nonpos le_rfl i
    · push_neg at h0
      have hemp : ∀ j : Nat, dropSG p start (j : Int) = Opt.none :=
        fun j => dropSG_empty_of_none (h.1 start h0) (j : Int)
      exact takeSG_of_all_none hemp _ i
  · intro start stop i hneg
    have hnone : p start = Opt.none := h.1 start hneg
    cases stop with
    | none => exact dropSG_empty_of_none hnone i
    | some e0 =>
      exact takeSG_of_all_none (fun j => dropSG_empty_of_none hnone (j : Int)) _ i
  · intro start stop i h0 hnone
    cases stop with
    | none => exact dropSG_empty_of_none hnone i
    | some e0 =>
      exact takeSG_of_all_none (fun j => dropSG_empty_of_none hnone (j : Int)) _ i

/-- Witness for C9 at `fromArray([1,2,3])`: `slice(1, 3)` agrees with
`drop(1).take(max(0, 3 - 1))` at index 0, and `slice(2, 1)` is empty at 0. -/
theorem slice_drop_take_equiv_w :
    sliceSG (fromArrayGet ([1, 2, 3] : List Int)) 1 (Option.some 3) 0
        = takeSG (dropSG (fromArrayGet ([1, 2, 3] : List Int)) 1) (max 0 (3 - 1)) 0 ∧
    sliceSG (fromArrayGet ([1, 2, 3] : List Int)) 2 (Option.some 1) 0 = Opt.none :=
  ⟨(slice_drop_take_equiv (fromArrayGet ([1, 2, 3] : List Int))
      (goodGet_seqOf (listStream [1, 2, 3]))).1 1 3 0,
   (slice_drop_take_equiv (fromArrayGet ([1, 2, 3] : List Int))
      (goodGet_seqOf (listStream [1, 2, 3]))).2.2.1 2 1 0 (by norm_num)⟩

/-! ### Claim C10 — negative indices -/

/-- C10.  `get(n)` with negative `n` answers the absent variant without
touching the source or the cache (the value is total — nothing is thrown);
consequently `drop(n)` with negative `n` is the empty sequence (every index
of it answers `NONE`), not the original sequence: concretely
`fromArray([1]).drop(-1)` has `get(0) = NONE` while the original has
`get(0) = SOME 1`. -/
theorem negative_index_spec :
    (∀ (α : Type) (isNil : α → Bool) (src : Nat → Option α) (n : Int) (cache : List α),
      n < 0 → getS isNil src n cache = (Opt.none, cache, [])) ∧
    (∀ (α : Type) (p : Int → Opt α), GoodGet p → ∀ n : Int, n < 0 → ∀ i : Int,
      dropSG p n i = Opt.none) ∧
    (dropSG (fromArrayGet ([1] : List Int)) (-1) 0 = Opt.none ∧
      fromArrayGet ([1] : List Int) 0 = Opt.some 1) := by
  refine ⟨?_, ?_, by decide, by decide⟩
  · intro α isNil src n cache hn
    rw [getS, if_pos (by omega), if_neg (by omega)]
    rfl
  · intro α p hp n hn i
    exact dropSG_empty_of_none (hp.1 n hn) i

/-- Witness for C10: `get(-1)` against an empty cache of the empty sequence,
and `fromArray([2]).drop(-2).get(5)`. -/
theorem negative_index_spec_w :
    getS noNil (listStream ([] : List Int)) (-1) [] = (Opt.none, [], []) ∧
    dropSG (fromArrayGet ([2] : List Int)) (-2) 5 = Opt.none :=
  ⟨negative_index_spec.1 Int noNil (listStream []) (-1) [] (by norm_num),
   negative_index_spec.2.1 Int (fromArrayGet ([2] : List Int))
     (goodGet_seqOf (listStream [2])) (-2) (by norm_num) 5⟩

end SeqModel

namespace SeqModel

/-! ### Claim C5 — `sliceBy` -/

/-- One `next()` of the `sliceBy` iterator's inner loop: collect elements
into the bucket until the predicate fires (the boundary element is dropped,
iteration continues after it: `Option.some rest`) or the source is exhausted
(`Option.none`, the `done = true` flag). -/
def takeBucket (p : α → Bool) : List α → List α × Option (List α)
  | [] => ([], Option.none)
  | x :: t =>
    if p x then ([], Option.some t)
    else
      let r := takeBucket p t
      (x :: r.1, r.2)

/-- `sliceBy(fn)` (`src/seq.ts`): emit one bucket per `next()`; after a
boundary the next call starts a fresh bucket; when the source is exhausted
the final bucket is emitted only if non-empty.  `fuel` bounds the recursion
(`l.length + 1` always suffices, see `sliceByModel`). -/
def sliceByGo (p : α → Bool) : Nat → List α → List (List α)
  | 0, _ => []
  | Nat.succ fuel, l =>
    match takeBucket p l with
    | (b, Option.some rest) => b :: sliceByGo p fuel rest
    | (b, Option.none) => if b.isEmpty then [] else [b]

/-- The slices `sliceBy(fn)` yields over a finite source. -/
def sliceByModel (p : α → Bool) (l : List α) : List (List α) :=
  sliceByGo p (l.length + 1) l

theorem sliceByGo_succ (p : α → Bool) (fuel : Nat) (l : List α) :
    sliceByGo p (fuel + 1) l =
      (match takeBucket p l with
       | (b, Option.some rest) => b :: sliceByGo p fuel rest
       | (b, Option.none) => if b.isEmpty then [] else [b]) := rfl

theorem takeBucket_char (p : α → Bool) :
    ∀ l : List α,
      (∀ x ∈ (takeBucket p l).1, p x = false) ∧
      (∀ rest, (takeBucket p l).2 = Option.some rest →
        ∃ y, p y = true ∧ l = (takeBucket p l).1 ++ y :: rest) ∧
      ((takeBucket p l).2 = Option.none → l = (takeBucket p l).1) := by
  intro l
  induction l with
  | nil =>
    refine ⟨?_, ?_, fun _ => rfl⟩
    · intro x hx
      simp [takeBucket] at hx
    · intro rest h
      simp [takeBucket] at h
  | cons x t ih =>
    by_cases hx : p x = true
    · simp only [takeBucket, hx, if_true]
      refine ⟨?_, ?_, ?_⟩
      · intro y hy
        simp at hy
      · intro rest h
        simp only [Option.some.injEq] at h
        subst h
        exact ⟨x, hx, rfl⟩
      · intro h
        simp at h
    · have hx' : p x = false := by
        cases hpx : p x
        · rfl
        · exact absurd hpx hx
      simp only [takeBucket, hx', Bool.false_eq_true, if_false]
      refine ⟨?_, ?_, ?_⟩
      · intro y hy
        rcases List.mem_cons.mp hy with rfl | hy
        · exact hx'
        · exact ih.1 y hy
      · intro rest h
        obtain ⟨y, hy, ht⟩ := ih.2.1 rest h
        exact ⟨y, hy, by rw [List.cons_append, ← ht]⟩
      · intro h
        rw [List.cons_inj_right]
        exact ih.2.2 h

theorem takeBucket_rest_length (p : α → Bool) (l rest : List α)
    (h : (takeBucket p l).2 = Option.some rest) : rest.length < l.length := by
  obtain ⟨y, _, hl⟩ := (takeBucket_char p l).2.1 rest h
  have := congrArg List.length hl
  simp only [List.length_append, List.length_cons] at this
  omega

theorem takeBucket_all_false (p : α → Bool) :
    ∀ l : List α, (∀ x ∈ l, p x = false) → takeBucket p l = (l, Option.none) := by
  intro l
  induction l with
  | nil => intro _; rfl
  | cons x t ih =>
    intro h
    have hx : p x = false := h x (List.mem_cons_self x t)
    simp only [takeBucket, hx, Bool.false_eq_true, if_false,
      ih (fun v hv => h v (List.mem_cons_of_mem x hv))]

theorem sliceByGo_fuel (p : α → Bool) :
    ∀ (fuel fuel' : Nat) (l : List α), l.length < fuel → l.length < fuel' →
      sliceByGo p fuel l = sliceByGo p fuel' l := by
  intro fuel
  induction fuel with
  | zero => intro fuel' l h _; omega
  | succ fuel ih =>
    intro fuel' l h h'
    cases fuel' with
    | zero => omega
    | succ fuel' =>
      rcases hb : takeBucket p l with ⟨b, o⟩
      cases o with
      | none => simp only [sliceByGo, hb]
      | some rest =>
        have hlt : rest.length < l.length :=
          takeBucket_rest_length p l rest (by rw [hb])
        simp only [sliceByGo, hb]
        rw [ih fuel' rest (by omega) (by omega)]

theorem sliceByGo_join (p : α → Bool) :
    ∀ (fuel : Nat) (l : List α), l.length < fuel →
      (sliceByGo p fuel l).flatten = l.filter (fun x => !p x) := by
  intro fuel
  induction fuel with
  | zero => intro l h; omega
  | succ fuel ih =>
    intro l h
    rcases hb : takeBucket p l with ⟨b, o⟩
    have hchar := takeBucket_char p l
    rw [hb] at hchar
    cases o with
    | some rest =>
      obtain ⟨y, hy, hl⟩ := hchar.2.1 rest rfl
      have hrest : rest.length < fuel := by
        have := congrArg List.length hl
        simp only [List.length_append, List.length_cons] at this
        omega
      have hfb : List.filter (fun x => !p x) b = b := by
        rw [List.filter_eq_self]
        intro a ha
        simp [hchar.1 a ha]
      simp only [sliceByGo, hb, List.flatten_cons]
      rw [ih rest hrest]
      conv_rhs => rw [hl]
      rw [List.filter_append, List.filter_cons]
      simp only [hy, Bool.not_true, Bool.false_eq_true, if_false]
      rw [hfb]
    | none =>
      have hfb : List.filter (fun x => !p x) b = b := by
        rw [List.filter_eq_self]
        intro a ha
        simp [hchar.1 a ha]
      have hl : l = b := hchar.2.2 rfl
      simp only [sliceByGo, hb]
      by_cases hemp : b.isEmpty
      · rw [if_pos hemp]
        rw [List.isEmpty_iff] at hemp
        rw [hl, hemp]
        rfl
      · rw [if_neg hemp, hl, hfb]
        simp [List.flatten]

/-- C5.  `sliceBy(pred)` splits at every element where `pred` holds and drops
the boundary element (the concatenation of all slices is exactly the
non-boundary elements, in order); a leading boundary produces an empty first
slice followed by the slices of the tail; the empty sequence produces zero
slices; a non-empty source with no boundaries yields exactly one slice
holding everything; and the two documented examples hold. -/
theorem sliceBy_splits {α : Type} (p : α → Bool) :
    (sliceByModel p ([] : List α) = []) ∧
    (∀ (x : α) (t : List α), p x = true →
      sliceByModel p (x :: t) = [] :: sliceByModel p t) ∧
    (∀ l : List α, l ≠ [] → (∀ x ∈ l, p x = false) → sliceByModel p l = [l]) ∧
    (∀ l : List α, (sliceByModel p l).flatten = l.filter (fun x => !p x)) ∧
    (sliceByModel (fun x : Int => x == 0) [1, 0, 2, 0, 3] = [[1], [2], [3]]) ∧
    (sliceByModel (fun x : Int => x == 0) [0, 1, 2] = [[], [1, 2]]) := by
  refine ⟨rfl, ?_, ?_, ?_, by decide, by decide⟩
  · intro x t hx
    have hb : takeBucket p (x :: t) = ([], Option.some t) := by
      simp [takeBucket, hx]
    show sliceByGo p ((x :: t).length + 1) (x :: t) = [] :: sliceByModel p t
    rw [sliceByGo_succ, hb]
    rfl
  · intro l hne hall
    show sliceByGo p (l.length + 1) l = [l]
    cases l with
    | nil => exact absurd rfl hne
    | cons x t =>
      have hb := takeBucket_all_false p (x :: t) hall
      rw [sliceByGo_succ, hb]
      rfl
  · intro l
    exact sliceByGo_join p (l.length + 1) l (by omega)

/-- Witness for C5: a leading boundary in `[0, 5]` yields an empty first
slice, and the boundary-free `[7, 8]` yields the single slice `[[7, 8]]`. -/
theorem sliceBy_splits_w :
    sliceByModel (fun x : Int => x == 0) [0, 5]
        = [] :: sliceByModel (fun x : Int => x == 0) [5] ∧
    sliceByModel (fun x : Int => x == 0) [7, 8] = [[7, 8]] :=
  ⟨(sliceBy_splits (fun x : Int => x == 0)).2.1 0 [5] (by decide),
   (sliceBy_splits (fun x : Int => x == 0)).2.2.1 [7, 8] (by decide) (by decide)⟩

end SeqModel

namespace SeqModel

/-! ### Claim C6 — `chunk` / `window` size guards -/

/-- The chunk-building loop of `chunk(size)` (`src/seq.ts`): fill the current
chunk (`buf`, kept reversed) until it holds `size` elements, emit it, start a
fresh one; on exhaustion emit the final partial chunk unless it is empty. -/
def chunksGo (size : Nat) : List α → List α → List (List α)
  | buf, [] => if buf.isEmpty then [] else [buf.reverse]
  | buf, x :: t =>
    if buf.length + 1 < size then chunksGo size (x :: buf) t
    else (x :: buf).reverse :: chunksGo size [] t

/-- The window loop of `window(size)` (`src/seq.ts`): fill the buffer to
`size` elements, emit a copy, shift one off; no partial window is ever
emitted, so each step yields `size` consecutive elements offset by one. -/
def windowsGo (size : Nat) : List α → List (List α)
  | [] => []
  | x :: t =>
    if t.length + 1 < size then []
    else (x :: t.take (size - 1)) :: windowsGo size t

/-- `chunk(size)` (`src/seq.ts`): `if (size <= 0) throw new Error(...)` —
synchronously, before `create` is ever called.  The throw is modelled as
`Except.error` carrying the message; note this is an abrupt failure distinct
from the library's `Res` value. -/
def chunk (size : Int) (l : List α) : Except String (List (List α)) :=
  if size ≤ 0 then Except.error "Chunk size must be greater than 0"
  else Except.ok (chunksGo size.toNat [] l)

/-- `window(size)` (`src/seq.ts`): same guard shape with its own message. -/
def window (size : Int) (l : List α) : Except String (List (List α)) :=
  if size ≤ 0 then Except.error "Window size must be greater than 0"
  else Except.ok (windowsGo size.toNat l)

/-- C6.  `chunk(size)` and `window(size)` with `size ≤ 0` raise immediately
and synchronously at the constructing call — before any part of the sequence
is consumed, witnessed by the result being independent of the sequence — as
an abrupt error (`Except.error`), not a `Res`/`Opt` value; for `size > 0`
the construction never raises. -/
theorem chunk_window_guard {α : Type} :
    (∀ (size : Int) (l : List α), size ≤ 0 →
      chunk size l = Except.error "Chunk size must be greater than 0") ∧
    (∀ (size : Int) (l : List α), size ≤ 0 →
      window size l = Except.error "Window size must be greater than 0") ∧
    (∀ (size : Int) (l l' : List α), size ≤ 0 →
      chunk size l = chunk size l' ∧ window size l = window size l') ∧
    (∀ (size : Int) (l : List α), 0 < size →
      (∃ r, chunk size l = Except.ok r) ∧ (∃ r, window size l = Except.ok r)) ∧
    (chunk 2 ([1, 2, 3, 4, 5] : List Int) = Except.ok [[1, 2], [3, 4], [5]]) := by
  refine ⟨?_, ?_, ?_, ?_, by rfl⟩
  · intro size l h
    rw [chunk, if_pos h]
  · intro size l h
    rw [window, if_pos h]
  · intro size l l' h
    constructor
    · rw [chunk, if_pos h, chunk, if_pos h]
    · rw [window, if_pos h, window, if_pos h]
  · intro size l h
    constructor
    · exact ⟨chunksGo size.toNat [] l, by rw [chunk, if_neg (by omega)]⟩
    · exact ⟨windowsGo size.toNat l, by rw [window, if_neg (by omega)]⟩

/-- Witness for C6: `chunk(-1)` and `window(0)` raise; `chunk(3)` does not. -/
theorem chunk_window_guard_w :
    chunk (-1) ([1] : List Int) = Except.error "Chunk size must be greater than 0" ∧
    window 0 ([1] : List Int) = Except.error "Window size must be greater than 0" ∧
    (∃ r, chunk 3 ([1, 2] : List Int) = Except.ok r) :=
  ⟨(@chunk_window_guard Int).1 (-1) [1] (by norm_num),
   (@chunk_window_guard Int).2.1 0 [1] (by norm_num),
   ((@chunk_window_guard Int).2.2.2.1 3 [1, 2] (by norm_num)).1⟩

/-! ### Claim C7 — `flatMap` -/

/-- The indexed outer iterator `iterable[Symbol.iterator]()` of `flatMap`:
position of each outer element alongside its value. -/
def enumFrom (i : Nat) : List α → List (Nat × α)
  | [] => []
  | x :: t => (i, x) :: enumFrom (i + 1) t

/-- A run of the `flatMap(fn)` iterator (`src/seq.ts`) pulling at most `n`
results: while the current inner sequence `inner` has elements, yield them;
when it is exhausted, pull the next outer element (logging its position —
the second component is the log of outer positions pulled), set
`inner = fn(outer)`, and continue; when the outer iterator is exhausted the
run ends.  An outer element is pulled only when a further result is still
demanded (`n` not yet exhausted). -/
def flatMapRun (f : α → List β) : Nat → List β → List (Nat × α) → List β × List Nat
  | n, inner, [] => (inner.take n, [])
  | n, inner, (i, a) :: rest =>
    if n ≤ inner.length then (inner.take n, [])
    else
      let r := flatMapRun f (n - inner.length) (f a) rest
      (inner ++ r.1, i :: r.2)

theorem enumFrom_map_snd : ∀ (l : List α) (i : Nat), (enumFrom i l).map Prod.snd = l := by
  intro l
  induction l with
  | nil => intro i; rfl
  | cons x t ih =>
    intro i
    simp only [enumFrom, List.map_cons, ih]

theorem flatMapRun_take (f : α → List β) :
    ∀ (outer : List (Nat × α)) (n : Nat) (inner : List β),
      (flatMapRun f n inner outer).1
        = (inner ++ ((outer.map Prod.snd).map f).flatten).take n := by
  intro outer
  induction outer with
  | nil =>
    intro n inner
    simp [flatMapRun]
  | cons ia rest ih =>
    rcases ia with ⟨i, a⟩
    intro n inner
    rw [flatMapRun]
    by_cases hn : n ≤ inner.length
    · rw [if_pos hn, List.take_append_eq_append_take,
        show n - inner.length = 0 by omega]
      simp
    · rw [if_neg hn]
      show inner ++ (flatMapRun f (n - inner.length) (f a) rest).1 = _
      rw [ih (n - inner.length) (f a)]
      conv_rhs => rw [List.take_append_eq_append_take, List.take_of_length_le (by omega)]
      simp

theorem flatMapRun_log (f : α → List β) :
    ∀ (outer : List (Nat × α)) (n : Nat) (inner : List β),
      (inner ++ ((outer.map Prod.snd).map f).flatten).length + 1 ≤ n →
      (flatMapRun f n inner outer).2 = outer.map Prod.fst := by
  intro outer
  induction outer with
  | nil =>
    intro n inner h
    rfl
  | cons ia rest ih =>
    rcases ia with ⟨i, a⟩
    intro n inner h
    simp only [List.map_cons, List.flatten_cons, List.length_append] at h
    rw [flatMapRun, if_neg (by omega)]
    show i :: (flatMapRun f (n - inner.length) (f a) rest).2 = _
    rw [ih (n - inner.length) (f a) (by rw [List.length_append]; omega)]
    rfl

/-- C7.  `flatMap(fn)` enumerates, for each outer element in order, `fn` of
it to exhaustion before advancing: a run demanding `n` results yields exactly
the first `n` elements of the concatenation of the `fn` images in outer
order; a run long enough to exhaust everything pulls each outer position
exactly once, in order; and pulling only the first result touches only outer
position 0 whenever `fn` of the first element is non-empty.  The documented
example `fromArray([1,2,3]).flatMap(x => fromArray([x, x*10]))` yields
`[1, 10, 2, 20, 3, 30]`. -/
theorem flatMap_order_laziness {α β : Type} (f : α → List β) (l : List α) :
    (∀ n : Nat, (flatMapRun f n [] (enumFrom 0 l)).1 = ((l.map f).flatten).take n) ∧
    (∀ n : Nat, ((l.map f).flatten).length + 1 ≤ n →
      (flatMapRun f n [] (enumFrom 0 l)).2 = (enumFrom 0 l).map Prod.fst) ∧
    (∀ (a : α) (t : List α), l = a :: t → f a ≠ [] →
      (flatMapRun f 1 [] (enumFrom 0 l)).2 = [0]) ∧
    ((flatMapRun (fun x : Int => [x, x * 10]) 7 [] (enumFrom 0 ([1, 2, 3] : List Int))).1
      = [1, 10, 2, 20, 3, 30]) := by
  refine ⟨?_, ?_, ?_, by decide⟩
  · intro n
    rw [flatMapRun_take]
    rw [enumFrom_map_snd]
    rfl
  · intro n hn
    apply flatMapRun_log
    rw [enumFrom_map_snd]
    simpa using hn
  · intro a t hl hfa
    subst hl
    show (flatMapRun f 1 [] ((0, a) :: enumFrom 1 t)).2 = [0]
    rw [flatMapRun, if_neg (by simp)]
    have hr : (flatMapRun f (1 - ([] : List β).length) (f a) (enumFrom 1 t)).2 = [] := by
      cases hfb : f a with
      | nil => exact absurd hfb hfa
      | cons b bs =>
        cases hrest : enumFrom 1 t with
        | nil => rfl
        | cons q qs =>
          rcases q with ⟨i2, a2⟩
          rw [flatMapRun, if_pos (by simp)]
    show 0 :: (flatMapRun f (1 - ([] : List β).length) (f a) (enumFrom 1 t)).2 = [0]
    rw [hr]

/-- Witness for C7: the full run over `[1,2,3]` pulls outer positions
`[0, 1, 2]` in order, and demanding one result of
`fromArray([4,5]).flatMap(x => fromArray([x+1]))` pulls only position 0. -/
theorem flatMap_order_laziness_w :
    (flatMapRun (fun x : Int => [x, x * 10]) 7 [] (enumFrom 0 ([1, 2, 3] : List Int))).2
        = (enumFrom 0 ([1, 2, 3] : List Int)).map Prod.fst ∧
    (flatMapRun (fun x : Int => [x + 1]) 1 [] (enumFrom 0 ([4, 5] : List Int))).2 = [0] :=
  ⟨(flatMap_order_laziness (fun x : Int => [x, x * 10]) [1, 2, 3]).2.1 7 (by decide),
   (flatMap_order_laziness (fun x : Int => [x + 1]) [4, 5]).2.2.1 4 [5] rfl (by decide)⟩

end SeqModel
